import Mathlib

/-!
Verification of the incremental query engine (input store, query cache,
dependency-tracking context, query stack) against its specification.

The Rust sources are shallowly embedded:
* hash maps (`FxHashMap`, `FxDashMap`) become association lists observed
  only through `lookupA`; insertion and erasure are canonical (erase all
  other bindings of the key), which matches hash-map semantics up to
  iteration order, never observed except in the cycle diagnostic where
  each id has at most one binding;
* machine integers (`u16`/`u32`/`u64` counters, `NonZeroU64` revisions)
  become `Nat`; the source increments them with overflow-checked
  arithmetic, so overflow is a panic, not wrap-around, and is unreachable
  for any execution short enough to matter;
* panics (`unwrap`, map indexing, assert) become explicit `Option` /
  `PanicOr` results;
* stateful methods become state-passing functions.
-/

namespace Inqui

/-! ### Association-list model of hash maps -/

/-- Lookup of a key in an association list, the observation function for
our hash-map model (`HashMap::get`). -/
def lookupA {α β : Type} [DecidableEq α] : List (α × β) → α → Option β
  | [], _ => none
  | (a, b) :: rest, key => if a = key then some b else lookupA rest key

/-- Erase every binding of a key (`HashMap::remove`, canonical form). -/
def eraseA {α β : Type} [DecidableEq α] : List (α × β) → α → List (α × β)
  | [], _ => []
  | (k, v) :: rest, a => if k = a then eraseA rest a else (k, v) :: eraseA rest a

/-- Insert or overwrite the binding of a key (`HashMap::insert`). -/
def insertA {α β : Type} [DecidableEq α] (l : List (α × β)) (a : α) (b : β) : List (α × β) :=
  (a, b) :: eraseA l a

theorem lookupA_eraseA {α β : Type} [DecidableEq α] (l : List (α × β)) (a x : α) :
    lookupA (eraseA l a) x = if x = a then none else lookupA l x := by
  induction l with
  | nil => simp [eraseA, lookupA]
  | cons hd tl ih =>
    obtain ⟨k, v⟩ := hd
    simp only [eraseA]
    by_cases hka : k = a
    · rw [if_pos hka, ih]
      by_cases hxa : x = a
      · simp [hxa, lookupA]
      · have hkx : ¬ k = x := fun h => hxa (by rw [← h, hka])
        simp [hxa, lookupA, hkx]
    · rw [if_neg hka]
      simp only [lookupA]
      by_cases hkx : k = x
      · have hxa : ¬ x = a := fun h => hka (by rw [hkx, h])
        simp [hkx, hxa]
      · simp [hkx, ih]

theorem lookupA_insertA {α β : Type} [DecidableEq α] (l : List (α × β)) (a x : α) (b : β) :
    lookupA (insertA l a b) x = if x = a then some b else lookupA l x := by
  simp only [insertA, lookupA]
  by_cases hx : x = a
  · subst hx
    simp
  · have hax : ¬ a = x := fun h => hx h.symm
    rw [if_neg hax, lookupA_eraseA, if_neg hx, if_neg hx]

/-! ### InputStorage (src/input.rs)

`KeyIndex` and `InputIndex` are modelled as `Nat` (the source uses `u32`
and `u16`; overflow of the mint counter is a checked-arithmetic panic and
is not modelled). -/

/-- Embedding of `InputStorage<T>`: `index_map : key → KeyIndex`,
`value_map : KeyIndex → value`, and the mint counter `key_index`. -/
structure InputStorage (K V : Type) where
  index_map : List (K × Nat)
  value_map : List (Nat × V)
  key_index : Nat
  deriving Repr, DecidableEq

/-- Embedding of `InputStorage::default` / `new`. -/
def InputStorage.new {K V : Type} : InputStorage K V :=
  ⟨[], [], 0⟩

/-- Embedding of `InputStorage::get`: resolve the key to its `KeyIndex`,
then read the value map. The source unwraps the inner lookup (a panic on
a storage whose two maps disagree, unreachable by the invariants proved
below); the model returns `none` there. -/
def InputStorage.get {K V : Type} [DecidableEq K] (s : InputStorage K V) (key : K) :
    Option (V × Nat) :=
  match lookupA s.index_map key with
  | none => none
  | some index =>
    match lookupA s.value_map index with
    | none => none
    | some value => some (value, index)

/-- Embedding of `InputStorage::set`: unconditionally advance the mint
counter (the source computes `new_index` and bumps `key_index` before
consulting the entry), resolve the key to the existing index or bind it
to the fresh one, and overwrite the value map at the resolved index. -/
def InputStorage.set {K V : Type} [DecidableEq K] (s : InputStorage K V) (key : K) (value : V) :
    Nat × InputStorage K V :=
  let new_index := s.key_index
  match lookupA s.index_map key with
  | some index =>
    (index, ⟨s.index_map, insertA s.value_map index value, s.key_index + 1⟩)
  | none =>
    (new_index,
      ⟨insertA s.index_map key new_index, insertA s.value_map new_index value, s.key_index + 1⟩)

/-- Embedding of `InputStorage::remove`: drop the key from `index_map`
and its index from `value_map`; the mint counter is untouched. The inner
`unwrap` of the source (value absent for a live index) is modelled as
`none`. -/
def InputStorage.remove {K V : Type} [DecidableEq K] (s : InputStorage K V) (key : K) :
    Option ((V × Nat) × InputStorage K V) :=
  match lookupA s.index_map key with
  | none => none
  | some index =>
    match lookupA s.value_map index with
    | none => none
    | some value =>
      some ((value, index), ⟨eraseA s.index_map key, eraseA s.value_map index, s.key_index⟩)

/-! ### Revision and Runtime (src/revision.rs, src/runtime.rs)

`Revision` wraps a `NonZeroU64`; it is modelled as `Nat` starting at 1,
with `increment` as `+ 1` (the source's increment is overflow-checked).
The locks of the source coordinate concurrent access and have no effect
on the sequential state transformer modelled here. An input kind `T` is
identified by its `T::INDEX`, so the storage group becomes a finite map
from input index to table, every absent index denoting the
default-initialized table of the source's storage-group record. -/

/-- Embedding of `revision::START` and `Revision::default`. -/
def revisionStart : Nat := 1

/-- Embedding of the runtime's `SharedState`: current revision, the
storage group, and the per-cell revision map keyed by
`(InputIndex, KeyIndex)`. -/
structure Runtime (K V : Type) where
  rev : Nat
  inputs : List (Nat × InputStorage K V)
  input_revs : List ((Nat × Nat) × Nat)
  deriving Repr, DecidableEq

/-- Embedding of `Runtime::default`: revision 1, default tables, empty
revision map. -/
def Runtime.init {K V : Type} : Runtime K V :=
  ⟨revisionStart, [], []⟩

/-- Projection `T::storage`: the table of the input kind with index
`idx` (default-initialized when never written). -/
def Runtime.tableOf {K V : Type} [DecidableEq K] (rt : Runtime K V) (idx : Nat) :
    InputStorage K V :=
  (lookupA rt.inputs idx).getD InputStorage.new

/-- Embedding of `Runtime::set_input`: write the value into `T`'s table,
increment the revision, and stamp the resulting cell in `input_revs`
with the new revision. -/
def Runtime.set_input {K V : Type} [DecidableEq K] (rt : Runtime K V) (idx : Nat) (key : K)
    (value : V) : Runtime K V :=
  let resolved := (rt.tableOf idx).set key value
  { rev := rt.rev + 1,
    inputs := insertA rt.inputs idx resolved.2,
    input_revs := insertA rt.input_revs (idx, resolved.1) (rt.rev + 1) }

/-- Embedding of `Runtime::remove_input`: when the key is present,
remove the cell from `T`'s table, increment the revision, and stamp the
removed cell's entry (kept in `input_revs`) with the new revision;
otherwise the state is untouched. -/
def Runtime.remove_input {K V : Type} [DecidableEq K] (rt : Runtime K V) (idx : Nat) (key : K) :
    Runtime K V :=
  match (rt.tableOf idx).remove key with
  | none => rt
  | some ((_, key_index), storage) =>
    { rev := rt.rev + 1,
      inputs := insertA rt.inputs idx storage,
      input_revs := insertA rt.input_revs (idx, key_index) (rt.rev + 1) }

/-- Embedding of `Runtime::get_input`: an untracked read. -/
def Runtime.get_input {K V : Type} [DecidableEq K] (rt : Runtime K V) (idx : Nat) (key : K) :
    Option V :=
  ((rt.tableOf idx).get key).map (fun vk => vk.1)

/-- Embedding of `Iterator::max` over the mapped revisions. -/
def iterMax : List Nat → Option Nat
  | [] => none
  | a :: rest =>
    match iterMax rest with
    | none => some a
    | some m => some (max a m)

/-- Map a fallible function over a list, failing when any element fails
(the iterator of the source panics at the first missing key). -/
def mapO {α β : Type} (f : α → Option β) : List α → Option (List β)
  | [] => some []
  | a :: l =>
    match f a, mapO f l with
    | some b, some bs => some (b :: bs)
    | _, _ => none

/-- Embedding of `Runtime::last_rev_of`. The source indexes `input_revs`
directly, a panic when a dependency cell is missing; the panic is
modelled as `none`. An empty dependency list yields
`Revision::default()` (`unwrap_or_default`). -/
def Runtime.last_rev_of {K V : Type} (rt : Runtime K V) (dependencies : List (Nat × Nat)) :
    Option Nat :=
  (mapO (fun index => lookupA rt.input_revs index) dependencies).map
    (fun revs => (iterMax revs).getD revisionStart)

/-! ### Query stack (src/query_stack.rs) -/

/-- Embedding of the source's top-to-bottom scan
(`iter().enumerate().rev().find_map(..)`): the index of the last
occurrence of an element. -/
def findLastIdx {α : Type} [DecidableEq α] : List α → α → Option Nat
  | [], _ => none
  | a :: rest, x =>
    match findLastIdx rest x with
    | some i => some (i + 1)
    | none => if a = x then some 0 else none

/-- Result of `QueryStack::push`: either a detected cycle payload or the
`pop_at` mark recorded by the returned `ActiveQueryGuard`. -/
inductive PushRes where
  | cycle (payload : List Nat)
  | ok (pop_at : Nat)
  deriving Repr, DecidableEq

/-- Embedding of `QueryStack::push`, returning the result together with
the stack contents afterwards: on a cycle the stack is untouched and the
payload is `stack[i..] ++ [id]`; otherwise the id is appended and the
guard records `pop_at`, the new length. -/
def QueryStack.push (active : List Nat) (query_id : Nat) : PushRes × List Nat :=
  match findLastIdx active query_id with
  | some cycle_start =>
    (PushRes.cycle (active.drop cycle_start ++ [query_id]), active)
  | none =>
    (PushRes.ok (active ++ [query_id]).length, active ++ [query_id])

/-- Embedding of `ActiveQueryGuard::drop`: assert the stack length
equals `pop_at` (`none` models the assert failure) and pop one element. -/
def ActiveQueryGuard.drop (active : List Nat) (pop_at : Nat) : Option (List Nat) :=
  if active.length = pop_at then some active.dropLast else none

/-! ### Query cache and context (src/query.rs)

`QueryId` is modelled as `Nat` (`u32` in the source, minted by a
`fetch_add` counter). A query type `Q` becomes a value of an abstract
type `QT` with decidable equality (the source keys `id_map` by
`TypeId`). Outputs are stored type-erased behind `Arc<dyn Any>` and
downcast on the hit path; since for one query type the output type is
fixed by construction, the model fixes a single output type `O` and the
downcast is the identity. -/

/-- Embedding of `QueryData`: the stored output, the revision at which
the query completed, and the dependency cells it observed. -/
structure QueryData (O : Type) where
  output : O
  valid_at : Nat
  dependencies : List (Nat × Nat)
  deriving Repr, DecidableEq

/-- Embedding of `QueryCache`: `id_map : QueryType → (param → QueryId)`,
`query_map : QueryId → QueryData`, and the `query_id` mint counter. -/
structure QueryCache (QT P O : Type) where
  id_map : List (QT × List (P × Nat))
  query_map : List (Nat × QueryData O)
  query_id : Nat

/-- Embedding of `QueryCache::default`. -/
def QueryCache.empty {QT P O : Type} : QueryCache QT P O :=
  ⟨[], [], 0⟩

/-- Embedding of `QueryCache::id`: the `QueryId` of `(q, p)` when known. -/
def QueryCache.id {QT P O : Type} [DecidableEq QT] [DecidableEq P]
    (c : QueryCache QT P O) (q : QT) (p : P) : Option Nat :=
  (lookupA c.id_map q).bind (fun pm => lookupA pm p)

/-- Result of an operation that can panic in the source. -/
inductive PanicOr (α : Type) where
  | panicked
  | value (a : α)
  deriving Repr, DecidableEq

/-- Embedding of `QueryCache::cached`: resolve the id through `id_map`,
fetch the entry from `query_map` (absence of either is a miss), compare
`last_rev_of` of the entry's dependencies with `valid_at`, and on a hit
return the stored output. `PanicOr.panicked` models the source's panic
when a dependency cell is missing from `input_revs`. -/
def QueryCache.cached {QT P O K V : Type} [DecidableEq QT] [DecidableEq P] [DecidableEq K]
    (c : QueryCache QT P O) (q : QT) (p : P) (runtime : Runtime K V) : PanicOr (Option O) :=
  match c.id q p with
  | none => PanicOr.value none
  | some query_id =>
    match lookupA c.query_map query_id with
    | none =>
      -- The id exists but the query has started and not finished yet: miss.
      PanicOr.value none
    | some data =>
      match runtime.last_rev_of data.dependencies with
      | none => PanicOr.panicked
      | some last_rev =>
        if last_rev ≤ data.valid_at then PanicOr.value (some data.output)
        else PanicOr.value none

/-- Embedding of the id-resolution step of `try_insert_with`
(`id_map.entry(type).or_default().entry(param).or_insert_with(mint)`):
reuse the recorded id, or mint `query_id` and advance the counter. -/
def QueryCache.resolveId {QT P O : Type} [DecidableEq QT] [DecidableEq P]
    (c : QueryCache QT P O) (q : QT) (p : P) : Nat × QueryCache QT P O :=
  match lookupA c.id_map q with
  | none =>
    (c.query_id,
      { c with id_map := insertA c.id_map q [(p, c.query_id)], query_id := c.query_id + 1 })
  | some pm =>
    match lookupA pm p with
    | some query_id => (query_id, c)
    | none =>
      (c.query_id,
        { c with id_map := insertA c.id_map q (insertA pm p c.query_id),
                 query_id := c.query_id + 1 })

/-- Set-insertion into the context's dependency set (`FxDashSet`
deduplicates; iteration order is never semantically observed). -/
def depInsert (deps : List (Nat × Nat)) (cell : Nat × Nat) : List (Nat × Nat) :=
  if cell ∈ deps then deps else cell :: deps

/-- Embedding of `QueryContext::use_input`: look the key up in `T`'s
table through the runtime, and on a hit record `(T::INDEX, key_index)`
in the dependency set; a miss records nothing. Returns the read result
together with the dependency set afterwards. -/
def QueryContext.use_input {K V : Type} [DecidableEq K] (runtime : Runtime K V)
    (deps : List (Nat × Nat)) (idx : Nat) (key : K) : Option V × List (Nat × Nat) :=
  match (runtime.tableOf idx).get key with
  | none => (none, deps)
  | some (value, key_index) => (some value, depInsert deps (idx, key_index))

/-- A query body is modelled as the sequence of `use_input` reads it
performs; `runBody` folds them through the context, returning the read
results and the dependency set the context accumulated. -/
def runBody {K V : Type} [DecidableEq K] (runtime : Runtime K V) (reads : List (Nat × K)) :
    List (Option V) × List (Nat × Nat) :=
  reads.foldl
    (fun acc r =>
      let step := QueryContext.use_input runtime acc.2 r.1 r.2
      (acc.1 ++ [step.1], step.2))
    ([], [])

/-- Embedding of `QueryCache::try_insert_with` for a body that performs
the given reads and maps their results to `Except E O` (`resF`), with
`eOf` the `E: From<Cycle>` conversion. Steps, as in the source: resolve
or mint the id; push it onto the stack (on a cycle, convert and return);
run the body through a fresh context (on an error, drop the guard and
propagate); snapshot `valid_at = runtime.rev()`; extract the
dependencies; drop the guard; insert the entry into `query_map`. The
`getD` on the guard drop is the source's assert, proved to succeed
below. Returns the result, the cache afterwards, and the stack
afterwards. -/
def QueryCache.try_insert_with {QT P O K V E : Type} [DecidableEq QT] [DecidableEq P]
    [DecidableEq K] (c : QueryCache QT P O) (stack : List Nat) (runtime : Runtime K V)
    (q : QT) (p : P) (reads : List (Nat × K)) (resF : List (Option V) → Except E O)
    (eOf : List Nat → E) : Except E O × QueryCache QT P O × List Nat :=
  let resolved := c.resolveId q p
  let query_id := resolved.1
  let c₁ := resolved.2
  match QueryStack.push stack query_id with
  | (PushRes.cycle payload, stack₁) => (Except.error (eOf payload), c₁, stack₁)
  | (PushRes.ok pop_at, stack₁) =>
    let body := runBody runtime reads
    match resF body.1 with
    | Except.error e => (Except.error e, c₁, (ActiveQueryGuard.drop stack₁ pop_at).getD stack₁)
    | Except.ok output =>
      let valid_at := runtime.rev
      let dependencies := body.2
      let stack₂ := (ActiveQueryGuard.drop stack₁ pop_at).getD stack₁
      (Except.ok output,
        { c₁ with query_map := insertA c₁.query_map query_id ⟨output, valid_at, dependencies⟩ },
        stack₂)

/-! ### Reachable states

The public mutation surface of one `InputStorage` is `set` / `get` /
`remove`; the runtime's is `set_input` / `remove_input` (reads do not
change state); the whole system additionally runs queries. Reachability
is application of a list of such operations to the default state. -/

/-- One public operation on an `InputStorage` (`get` reads only; it is
kept so reachability quotes the full public surface). -/
inductive StorageOp (K V : Type) where
  | set (key : K) (value : V)
  | get (key : K)
  | remove (key : K)

/-- State transformer of a storage operation. -/
def stApply {K V : Type} [DecidableEq K] (s : InputStorage K V) : StorageOp K V →
    InputStorage K V
  | StorageOp.set key value => ((s.set key value)).2
  | StorageOp.get _ => s
  | StorageOp.remove key =>
    match s.remove key with
    | none => s
    | some (_, storage) => storage

/-- Storage reached by a sequence of operations from the default. -/
def stRun {K V : Type} [DecidableEq K] (ops : List (StorageOp K V)) : InputStorage K V :=
  ops.foldl stApply InputStorage.new

/-- Well-formedness of an `InputStorage`: all recorded indices are below
the mint counter, `index_map` and `value_map` carry exactly the same
`KeyIndex` values, and no two keys share an index. -/
def InputStorage.WF {K V : Type} [DecidableEq K] (s : InputStorage K V) : Prop :=
  (∀ k ki, lookupA s.index_map k = some ki → ki < s.key_index)
  ∧ (∀ ki, (∃ k, lookupA s.index_map k = some ki) ↔ ∃ v, lookupA s.value_map ki = some v)
  ∧ (∀ k₁ k₂ ki, lookupA s.index_map k₁ = some ki → lookupA s.index_map k₂ = some ki → k₁ = k₂)

/-- One public mutation on the runtime. -/
inductive RtOp (K V : Type) where
  | set (idx : Nat) (key : K) (value : V)
  | remove (idx : Nat) (key : K)

/-- State transformer of a runtime mutation. -/
def rtApply {K V : Type} [DecidableEq K] (rt : Runtime K V) : RtOp K V → Runtime K V
  | RtOp.set idx key value => rt.set_input idx key value
  | RtOp.remove idx key => rt.remove_input idx key

/-- A mutation is successful when it bumps the revision: `set_input`
always, `remove_input` only on a present key. -/
def rtMutOk {K V : Type} [DecidableEq K] (rt : Runtime K V) : RtOp K V → Prop
  | RtOp.set _ _ _ => True
  | RtOp.remove idx key => ((rt.tableOf idx).remove key).isSome = true

/-- Runtime reached by a sequence of mutations from the initial state. -/
def rtRun {K V : Type} [DecidableEq K] (ops : List (RtOp K V)) : Runtime K V :=
  ops.foldl rtApply Runtime.init

/-- Well-formedness of a runtime: the revision is at least the initial
one, every table is well-formed, and every live cell has an `input_revs`
entry stamped no later than the current revision. -/
def Runtime.WF {K V : Type} [DecidableEq K] (rt : Runtime K V) : Prop :=
  revisionStart ≤ rt.rev
  ∧ (∀ idx, (rt.tableOf idx).WF)
  ∧ (∀ idx k ki, lookupA (rt.tableOf idx).index_map k = some ki →
      ∃ r, lookupA rt.input_revs (idx, ki) = some r ∧ r ≤ rt.rev)

/-- The full system: a runtime plus a query cache. -/
structure SysState (QT P O K V : Type) where
  rt : Runtime K V
  cache : QueryCache QT P O

/-- One driver-level operation: an input mutation or a top-level query
call (the cycle-free success path of `try_insert_with` run on the fresh
per-thread stack; on a cycle or a body error the cache's `query_map` is
untouched, so those paths add nothing to the reachable `query_map`). -/
inductive SysOp (QT P O K V E : Type) where
  | set (idx : Nat) (key : K) (value : V)
  | remove (idx : Nat) (key : K)
  | query (q : QT) (p : P) (reads : List (Nat × K)) (resF : List (Option V) → Except E O)
      (eOf : List Nat → E)

/-- State transformer of a system operation. -/
def sysApply {QT P O K V E : Type} [DecidableEq QT] [DecidableEq P] [DecidableEq K]
    (s : SysState QT P O K V) : SysOp QT P O K V E → SysState QT P O K V
  | SysOp.set idx key value => { s with rt := s.rt.set_input idx key value }
  | SysOp.remove idx key => { s with rt := s.rt.remove_input idx key }
  | SysOp.query q p reads resF eOf =>
    let run := s.cache.try_insert_with [] s.rt q p reads resF eOf
    { s with cache := run.2.1 }

/-- System state reached by a sequence of operations. -/
def sysRun {QT P O K V E : Type} [DecidableEq QT] [DecidableEq P] [DecidableEq K]
    (ops : List (SysOp QT P O K V E)) : SysState QT P O K V :=
  ops.foldl sysApply ⟨Runtime.init, QueryCache.empty⟩

/-- Well-formedness of a system state: the runtime is well-formed and
every dependency cell recorded in `query_map` has an `input_revs`
entry. -/
def SysState.WF {QT P O K V : Type} [DecidableEq QT] [DecidableEq P] [DecidableEq K]
    (s : SysState QT P O K V) : Prop :=
  s.rt.WF
  ∧ ∀ query_id data, lookupA s.cache.query_map query_id = some data →
      ∀ cell ∈ data.dependencies, ∃ r, lookupA s.rt.input_revs cell = some r

/-! ### The cycle scenario (spec §8 S4, src/tests/cycle.rs)

Query functions `foo`, `bar`, `baz` over `u32` parameters, recursing
through `query_or_cycle` (a `cached` probe followed by
`try_insert_with`, as in the driver). Query types are identified by
their names; the runtime holds no inputs and stays at revision 1. The
recursion of the real driver is unrolled with fuel (`none` = fuel ran
out; the theorem exhibits a sufficient fuel). -/

/-- Evaluator state for the scenario: the shared cache and the
per-thread query stack. -/
structure CycleState where
  cache : QueryCache String Nat Nat
  stack : List Nat

/-- The scenario's runtime: no inputs were ever set. -/
def scRt : Runtime Nat Nat := Runtime.init

/-- One `query_or_cycle` call of the scenario driver: probe `cached`,
and on a miss run `try_insert_with` with the named query's body. The
bodies are inlined in the recursion (so it is structural in the fuel):
`foo n = if n > 1 then bar (n / 2) else n`,
`bar n = if n % 2 = 0 then foo n else baz n`, `baz n = bar (n + 1)`. -/
def scQuery : Nat → CycleState → String → Nat → Option (Except (List Nat) Nat × CycleState)
  | 0, _, _, _ => none
  | fuel + 1, s, q, p =>
    match s.cache.cached q p scRt with
    | PanicOr.panicked => none
    | PanicOr.value (some v) => some (Except.ok v, s)
    | PanicOr.value none =>
      let resolved := s.cache.resolveId q p
      match QueryStack.push s.stack resolved.1 with
      | (PushRes.cycle payload, stack₁) => some (Except.error payload, ⟨resolved.2, stack₁⟩)
      | (PushRes.ok pop_at, stack₁) =>
        let s₁ : CycleState := ⟨resolved.2, stack₁⟩
        let body :=
          match q with
          | "foo" =>
            if p > 1 then scQuery fuel s₁ "bar" (p / 2) else some (Except.ok p, s₁)
          | "bar" =>
            if p % 2 = 0 then scQuery fuel s₁ "foo" p else scQuery fuel s₁ "baz" p
          | "baz" => scQuery fuel s₁ "bar" (p + 1)
          | _ => none
        match body with
        | none => none
        | some (Except.error payload, s₂) =>
          some (Except.error payload,
            ⟨s₂.cache, (ActiveQueryGuard.drop s₂.stack pop_at).getD s₂.stack⟩)
        | some (Except.ok v, s₂) =>
          some (Except.ok v,
            ⟨{ s₂.cache with
                query_map := insertA s₂.cache.query_map resolved.1 ⟨v, scRt.rev, []⟩ },
              (ActiveQueryGuard.drop s₂.stack pop_at).getD s₂.stack⟩)

/-- Embedding of `CycleDebug::to_strings`: for each id of the cycle in
order, scan `id_map` and render every binding of that id as
`name(param)` (`format!` with the type name and the `Debug` of the
parameter). -/
def CycleDebug.to_strings (id_map : List (String × List (Nat × Nat))) (cycle : List Nat) :
    List String :=
  cycle.foldl
    (fun all query_id =>
      id_map.foldl
        (fun acc kv =>
          acc ++ kv.2.foldl
            (fun acc₂ pid =>
              if pid.2 = query_id then acc₂ ++ [kv.1 ++ "(" ++ toString pid.1 ++ ")"] else acc₂)
            [])
        all)
    []

/-- The rendered cycle of `query_or_cycle(12, foo)`, when the call
reports a cycle. -/
def s4Result : Option (List String) :=
  match scQuery 40 ⟨QueryCache.empty, []⟩ "foo" 12 with
  | some (Except.error payload, s) => some (CycleDebug.to_strings s.cache.id_map payload)
  | _ => none

/-! ### Helper lemmas -/

theorem iterMax_le {revs : List Nat} {m : Nat} (h : iterMax revs = some m) :
    ∀ r ∈ revs, r ≤ m := by
  induction revs generalizing m with
  | nil => cases h
  | cons a l ih =>
    intro r hr
    rcases hmax : iterMax l with _ | m'
    · simp only [iterMax, hmax] at h
      cases h
      rcases List.mem_cons.mp hr with rfl | hr
      · exact Nat.le_refl _
      · cases l with
        | nil => cases hr
        | cons b t =>
          exfalso
          rcases h2 : iterMax t with _ | mm <;> simp only [iterMax, h2] at hmax <;> cases hmax
    · simp only [iterMax, hmax] at h
      cases h
      rcases List.mem_cons.mp hr with rfl | hr
      · exact Nat.le_max_left _ _
      · exact Nat.le_trans (ih hmax r hr) (Nat.le_max_right _ _)

theorem iterMax_le_of_forall {revs : List Nat} {m R : Nat} (h : iterMax revs = some m)
    (hall : ∀ r ∈ revs, r ≤ R) : m ≤ R := by
  induction revs generalizing m with
  | nil => cases h
  | cons a l ih =>
    rcases hmax : iterMax l with _ | m'
    · simp only [iterMax, hmax] at h
      cases h
      exact hall _ (List.mem_cons_self _ _)
    · simp only [iterMax, hmax] at h
      cases h
      exact Nat.max_le.mpr
        ⟨hall _ (List.mem_cons_self _ _), ih hmax (fun r hr => hall r (List.mem_cons_of_mem _ hr))⟩

theorem mapO_mem {α β : Type} {f : α → Option β} {l : List α} {bs : List β}
    (h : mapO f l = some bs) : ∀ a ∈ l, ∃ b, f a = some b ∧ b ∈ bs := by
  induction l generalizing bs with
  | nil => intro a ha; cases ha
  | cons a l ih =>
    intro x hx
    rcases hfa : f a with _ | b
    · simp only [mapO, hfa] at h
      cases h
    · rcases hrest : mapO f l with _ | bs'
      · simp only [mapO, hfa, hrest] at h
        cases h
      · simp only [mapO, hfa, hrest] at h
        cases h
        rcases List.mem_cons.mp hx with rfl | hx
        · exact ⟨b, hfa, List.mem_cons_self _ _⟩
        · obtain ⟨b', hb', hmem⟩ := ih hrest x hx
          exact ⟨b', hb', List.mem_cons_of_mem _ hmem⟩

theorem mapO_isSome {α β : Type} {f : α → Option β} {l : List α}
    (h : ∀ a ∈ l, ∃ b, f a = some b) : ∃ bs, mapO f l = some bs ∧
      ∀ b ∈ bs, ∃ a ∈ l, f a = some b := by
  induction l with
  | nil => exact ⟨[], rfl, by simp⟩
  | cons a l ih =>
    obtain ⟨b, hb⟩ := h a (List.mem_cons_self _ _)
    obtain ⟨bs, hbs, hbmem⟩ := ih (fun x hx => h x (List.mem_cons_of_mem _ hx))
    refine ⟨b :: bs, by simp [mapO, hb, hbs], ?_⟩
    intro x hx
    rcases List.mem_cons.mp hx with rfl | hx
    · exact ⟨a, List.mem_cons_self _ _, hb⟩
    · obtain ⟨a', ha', hfa'⟩ := hbmem x hx
      exact ⟨a', List.mem_cons_of_mem _ ha', hfa'⟩

/-- On success, `last_rev_of` bounds the stamp of every dependency cell. -/
theorem last_rev_of_bounds {K V : Type} {rt : Runtime K V} {deps : List (Nat × Nat)}
    {last : Nat} (h : rt.last_rev_of deps = some last) :
    ∀ cell ∈ deps, ∃ r, lookupA rt.input_revs cell = some r ∧ r ≤ last := by
  simp only [Runtime.last_rev_of, Option.map_eq_some'] at h
  obtain ⟨revs, hrevs, hlast⟩ := h
  intro cell hcell
  obtain ⟨r, hr, hmem⟩ := mapO_mem hrevs cell hcell
  refine ⟨r, hr, ?_⟩
  rcases hmax : iterMax revs with _ | m
  · cases revs with
    | nil => cases hmem
    | cons a l =>
      rcases h2 : iterMax l with _ | m' <;> simp only [iterMax, h2] at hmax <;> cases hmax
  · have := iterMax_le hmax r hmem
    rw [← hlast]
    simpa [hmax] using this

/-- When every dependency cell has a stamp at most `R` (and `R` is at
least the initial revision), `last_rev_of` succeeds with a value at most
`R`. -/
theorem last_rev_of_le {K V : Type} {rt : Runtime K V} {deps : List (Nat × Nat)} {R : Nat}
    (hR : revisionStart ≤ R)
    (h : ∀ cell ∈ deps, ∃ r, lookupA rt.input_revs cell = some r ∧ r ≤ R) :
    ∃ last, rt.last_rev_of deps = some last ∧ last ≤ R := by
  have hsome : ∀ cell ∈ deps, ∃ r, (fun index => lookupA rt.input_revs index) cell = some r :=
    fun a ha => (h a ha).imp (fun r hr => hr.1)
  obtain ⟨revs, hrevs, hbmem⟩ := mapO_isSome hsome
  refine ⟨(iterMax revs).getD revisionStart, by simp [Runtime.last_rev_of, hrevs], ?_⟩
  rcases hmax : iterMax revs with _ | m
  · simpa using hR
  · simp only [Option.getD_some]
    refine iterMax_le_of_forall hmax ?_
    intro r hr
    obtain ⟨a, ha, hfa⟩ := hbmem r hr
    obtain ⟨r', hr', hle⟩ := h a ha
    rw [hfa] at hr'
    cases hr'
    exact hle

/-- Successful mutations bump the revision by exactly one. -/
theorem rtMutOk_rev {K V : Type} [DecidableEq K] (rt : Runtime K V) (op : RtOp K V)
    (h : rtMutOk rt op) : (rtApply rt op).rev = rt.rev + 1 := by
  cases op with
  | set idx k v => rfl
  | remove idx k =>
    simp only [rtMutOk, Option.isSome] at h
    simp only [rtApply, Runtime.remove_input]
    rcases hrem : (rt.tableOf idx).remove k with _ | pair
    · rw [hrem] at h
      cases h
    · simp only [hrem]

/-! ### Claim theorems -/

/-- C1. `cached::<Q>(p, runtime)` returns `Some(output)` iff `id_map`
maps `(Q, p)` to a `QueryId`, `query_map` has an entry for that id, and
the maximum `input_revs` revision over the entry's dependency set (the
initial revision when empty) is at most the entry's `valid_at`; the
returned value is the stored output, and on every hit every dependency
cell's `input_revs` revision is at most `valid_at`. -/
theorem cached_hit_iff {QT P O K V : Type} [DecidableEq QT] [DecidableEq P] [DecidableEq K]
    (c : QueryCache QT P O) (q : QT) (p : P) (rt : Runtime K V) (o : O) :
    (c.cached q p rt = PanicOr.value (some o) ↔
      ∃ query_id data last,
        c.id q p = some query_id ∧
        lookupA c.query_map query_id = some data ∧
        rt.last_rev_of data.dependencies = some last ∧
        last ≤ data.valid_at ∧ data.output = o)
    ∧ (∀ query_id data, c.cached q p rt = PanicOr.value (some o) →
        c.id q p = some query_id → lookupA c.query_map query_id = some data →
        ∀ cell ∈ data.dependencies,
          ∃ r, lookupA rt.input_revs cell = some r ∧ r ≤ data.valid_at) := by
  have hchar : c.cached q p rt = PanicOr.value (some o) ↔
      ∃ query_id data last,
        c.id q p = some query_id ∧
        lookupA c.query_map query_id = some data ∧
        rt.last_rev_of data.dependencies = some last ∧
        last ≤ data.valid_at ∧ data.output = o := by
    constructor
    · intro h
      simp only [QueryCache.cached] at h
      rcases hid : c.id q p with _ | query_id
      · simp only [hid] at h
        injection h with h₁
        cases h₁
      · simp only [hid] at h
        rcases hdata : lookupA c.query_map query_id with _ | data
        · simp only [hdata] at h
          injection h with h₁
          cases h₁
        · simp only [hdata] at h
          rcases hlast : rt.last_rev_of data.dependencies with _ | last
          · simp only [hlast] at h
            cases h
          · simp only [hlast] at h
            by_cases hle : last ≤ data.valid_at
            · rw [if_pos hle] at h
              injection h with h₁
              injection h₁ with h₂
              exact ⟨query_id, data, last, hid ▸ rfl, hdata, hlast, hle, h₂⟩
            · rw [if_neg hle] at h
              injection h with h₁
              cases h₁
    · rintro ⟨query_id, data, last, hid, hdata, hlast, hle, rfl⟩
      simp only [QueryCache.cached, hid, hdata, hlast, if_pos hle]
  refine ⟨hchar, ?_⟩
  intro query_id data hhit hid hdata cell hcell
  obtain ⟨query_id', data', last, hid', hdata', hlast, hle, _⟩ := hchar.mp hhit
  rw [hid] at hid'
  cases hid'
  rw [hdata] at hdata'
  cases hdata'
  obtain ⟨r, hr, hrle⟩ := last_rev_of_bounds hlast cell hcell
  exact ⟨r, hr, Nat.le_trans hrle hle⟩

/-- Witness for C1: a concrete cache with one entry whose single
dependency is stamped at the entry's `valid_at`; `cached` hits with the
stored output. -/
theorem cached_hit_iff_witness :
    QueryCache.cached (⟨[(0, [(5, 3)])], [(3, ⟨42, 2, [(1, 0)]⟩)], 4⟩ : QueryCache Nat Nat Nat)
      0 5 (⟨2, [], [((1, 0), 2)]⟩ : Runtime Nat Nat) = PanicOr.value (some 42) :=
  ((cached_hit_iff (⟨[(0, [(5, 3)])], [(3, ⟨42, 2, [(1, 0)]⟩)], 4⟩ : QueryCache Nat Nat Nat)
      0 5 (⟨2, [], [((1, 0), 2)]⟩ : Runtime Nat Nat) 42).1).mpr
    ⟨3, ⟨42, 2, [(1, 0)]⟩, 2, by decide, by decide, by decide, by decide, rfl⟩

/-- C3. Every successful mutation (`set_input`, or `remove_input` of a
present key) increments the revision exactly once and stamps the mutated
cell's `input_revs` entry with the new revision; successive successful
mutations therefore produce strictly increasing revisions. -/
theorem mutation_increments_and_stamps {K V : Type} [DecidableEq K] (rt : Runtime K V)
    (idx : Nat) (key : K) (value : V) :
    ((rt.set_input idx key value).rev = rt.rev + 1
      ∧ lookupA (rt.set_input idx key value).input_revs
          (idx, ((rt.tableOf idx).set key value).1) = some (rt.rev + 1)
      ∧ rt.rev < (rt.set_input idx key value).rev)
    ∧ (∀ v₀ ki st, (rt.tableOf idx).remove key = some ((v₀, ki), st) →
        (rt.remove_input idx key).rev = rt.rev + 1
        ∧ lookupA (rt.remove_input idx key).input_revs (idx, ki) = some (rt.rev + 1)
        ∧ rt.rev < (rt.remove_input idx key).rev)
    ∧ (∀ op₁ op₂ : RtOp K V, rtMutOk rt op₁ → rtMutOk (rtApply rt op₁) op₂ →
        rt.rev < (rtApply rt op₁).rev
        ∧ (rtApply rt op₁).rev < (rtApply (rtApply rt op₁) op₂).rev) := by
  refine ⟨⟨rfl, ?_, Nat.lt_succ_self _⟩, ?_, ?_⟩
  · simp [Runtime.set_input, lookupA_insertA]
  · intro v₀ ki st hrem
    have hrt : rt.remove_input idx key =
        ⟨rt.rev + 1, insertA rt.inputs idx st,
          insertA rt.input_revs (idx, ki) (rt.rev + 1)⟩ := by
      simp only [Runtime.remove_input, hrem]
    rw [hrt]
    exact ⟨rfl, by simp [lookupA_insertA], Nat.lt_succ_self _⟩
  · intro op₁ op₂ h₁ h₂
    rw [rtMutOk_rev _ _ h₁, rtMutOk_rev _ _ h₂, rtMutOk_rev _ _ h₁]
    exact ⟨Nat.lt_succ_self _, Nat.lt_succ_self _⟩

/-- Witness for C3: removing the only key of a one-cell runtime bumps
the revision from 2 to 3 and stamps the removed cell with 3. -/
theorem mutation_increments_and_stamps_witness :
    (Runtime.remove_input (⟨2, [(1, ⟨[(7, 0)], [(0, 9)], 1⟩)], [((1, 0), 2)]⟩ : Runtime Nat Nat)
        1 7).rev = 3
    ∧ lookupA (Runtime.remove_input
        (⟨2, [(1, ⟨[(7, 0)], [(0, 9)], 1⟩)], [((1, 0), 2)]⟩ : Runtime Nat Nat) 1 7).input_revs
        (1, 0) = some 3 := by
  have h := (mutation_increments_and_stamps
    (⟨2, [(1, ⟨[(7, 0)], [(0, 9)], 1⟩)], [((1, 0), 2)]⟩ : Runtime Nat Nat) 1 7 0).2.1
    9 0 ⟨[], [], 1⟩ (by decide)
  exact ⟨h.1, h.2.1⟩

/-- C4. `QueryStack::push(id)`: when `id` occurs on the stack at
position `i`, it returns a cycle whose payload is `stack[i..] ++ [id]`
and leaves the stack unchanged; otherwise it appends `id` and the
guard's drop removes exactly that element. -/
theorem push_spec (stack : List Nat) (query_id : Nat) :
    (∀ i, findLastIdx stack query_id = some i →
      QueryStack.push stack query_id =
        (PushRes.cycle (stack.drop i ++ [query_id]), stack))
    ∧ (findLastIdx stack query_id = none →
        QueryStack.push stack query_id = (PushRes.ok (stack.length + 1), stack ++ [query_id])
        ∧ ActiveQueryGuard.drop (stack ++ [query_id]) (stack.length + 1) = some stack) := by
  constructor
  · intro i hi
    simp [QueryStack.push, hi]
  · intro hnone
    refine ⟨by simp [QueryStack.push, hnone], ?_⟩
    simp [ActiveQueryGuard.drop, List.dropLast_concat]

/-- Witness for C4: pushing 2 onto `[2, 5]` reports the cycle
`[2, 5, 2]`; pushing 7 appends it and the guard drop restores `[2, 5]`. -/
theorem push_spec_witness :
    QueryStack.push [2, 5] 2 = (PushRes.cycle [2, 5, 2], [2, 5])
    ∧ QueryStack.push [2, 5] 7 = (PushRes.ok 3, [2, 5, 7])
    ∧ ActiveQueryGuard.drop [2, 5, 7] 3 = some [2, 5] := by
  refine ⟨(push_spec [2, 5] 2).1 0 (by decide), ?_, ?_⟩
  · exact ((push_spec [2, 5] 7).2 (by decide)).1
  · exact ((push_spec [2, 5] 7).2 (by decide)).2

/-- C8. `remove_input` of an absent key leaves the whole runtime
unchanged; of a present key it removes the cell from both table maps,
increments the revision once, stamps the removed cell's retained
`input_revs` entry with the new revision, and touches no other table or
stamp. -/
theorem remove_input_frame {K V : Type} [DecidableEq K] (rt : Runtime K V) (idx : Nat)
    (key : K) :
    (lookupA (rt.tableOf idx).index_map key = none → rt.remove_input idx key = rt)
    ∧ (∀ ki v₀, lookupA (rt.tableOf idx).index_map key = some ki →
        lookupA (rt.tableOf idx).value_map ki = some v₀ →
        (rt.remove_input idx key).rev = rt.rev + 1
        ∧ lookupA ((rt.remove_input idx key).tableOf idx).index_map key = none
        ∧ lookupA ((rt.remove_input idx key).tableOf idx).value_map ki = none
        ∧ lookupA (rt.remove_input idx key).input_revs (idx, ki) = some (rt.rev + 1)
        ∧ (∀ idx', idx' ≠ idx → (rt.remove_input idx key).tableOf idx' = rt.tableOf idx')
        ∧ (∀ cell, cell ≠ (idx, ki) →
            lookupA (rt.remove_input idx key).input_revs cell = lookupA rt.input_revs cell)) := by
  constructor
  · intro hnone
    simp [Runtime.remove_input, InputStorage.remove, hnone]
  · intro ki v₀ hki hv
    have hrem : (rt.tableOf idx).remove key =
        some ((v₀, ki), ⟨eraseA (rt.tableOf idx).index_map key,
          eraseA (rt.tableOf idx).value_map ki, (rt.tableOf idx).key_index⟩) := by
      simp [InputStorage.remove, hki, hv]
    have hrt : rt.remove_input idx key =
        ⟨rt.rev + 1,
          insertA rt.inputs idx ⟨eraseA (rt.tableOf idx).index_map key,
            eraseA (rt.tableOf idx).value_map ki, (rt.tableOf idx).key_index⟩,
          insertA rt.input_revs (idx, ki) (rt.rev + 1)⟩ := by
      simp only [Runtime.remove_input, hrem]
    rw [hrt]
    refine ⟨rfl, ?_, ?_, ?_, ?_, ?_⟩
    · simp [Runtime.tableOf, lookupA_insertA, lookupA_eraseA]
    · simp [Runtime.tableOf, lookupA_insertA, lookupA_eraseA]
    · simp [lookupA_insertA]
    · intro idx' hne
      simp [Runtime.tableOf, lookupA_insertA, hne]
    · intro cell hne
      simp [lookupA_insertA, hne]

/-- Witness for C8: on a runtime whose table 1 holds key 7, removing key
9 is the identity, and removing key 7 deletes the cell, bumps the
revision to 3, and stamps `input_revs[(1, 0)]` with 3. -/
theorem remove_input_frame_witness :
    Runtime.remove_input (⟨2, [(1, ⟨[(7, 0)], [(0, 9)], 1⟩)], [((1, 0), 2)]⟩ : Runtime Nat Nat)
        1 9 = ⟨2, [(1, ⟨[(7, 0)], [(0, 9)], 1⟩)], [((1, 0), 2)]⟩
    ∧ (Runtime.remove_input (⟨2, [(1, ⟨[(7, 0)], [(0, 9)], 1⟩)], [((1, 0), 2)]⟩ : Runtime Nat Nat)
        1 7).rev = 3
    ∧ lookupA (Runtime.remove_input
        (⟨2, [(1, ⟨[(7, 0)], [(0, 9)], 1⟩)], [((1, 0), 2)]⟩ : Runtime Nat Nat) 1 7).input_revs
        (1, 0) = some 3 := by
  refine ⟨(remove_input_frame _ 1 9).1 (by decide), ?_, ?_⟩
  · exact ((remove_input_frame
      (⟨2, [(1, ⟨[(7, 0)], [(0, 9)], 1⟩)], [((1, 0), 2)]⟩ : Runtime Nat Nat) 1 7).2 0 9
      (by decide) (by decide)).1
  · exact ((remove_input_frame
      (⟨2, [(1, ⟨[(7, 0)], [(0, 9)], 1⟩)], [((1, 0), 2)]⟩ : Runtime Nat Nat) 1 7).2 0 9
      (by decide) (by decide)).2.2.2.1

/-- C9. `use_input` returns the stored value and records the cell
`(T::INDEX, key_index)` in the dependency set exactly when the key is
present in `T`'s table; on a miss it returns `None` and records
nothing. -/
theorem use_input_spec {K V : Type} [DecidableEq K] (rt : Runtime K V)
    (deps : List (Nat × Nat)) (idx : Nat) (key : K) :
    (∀ ki v, lookupA (rt.tableOf idx).index_map key = some ki →
      lookupA (rt.tableOf idx).value_map ki = some v →
      QueryContext.use_input rt deps idx key = (some v, depInsert deps (idx, ki))
      ∧ (idx, ki) ∈ (QueryContext.use_input rt deps idx key).2)
    ∧ (lookupA (rt.tableOf idx).index_map key = none →
        QueryContext.use_input rt deps idx key = (none, deps)) := by
  constructor
  · intro ki v hki hv
    have hget : (rt.tableOf idx).get key = some (v, ki) := by
      simp [InputStorage.get, hki, hv]
    have heq : QueryContext.use_input rt deps idx key = (some v, depInsert deps (idx, ki)) := by
      simp [QueryContext.use_input, hget]
    refine ⟨heq, ?_⟩
    rw [heq]
    simp only [depInsert]
    by_cases hmem : (idx, ki) ∈ deps
    · simp [hmem]
    · simp [hmem]
  · intro hnone
    simp [QueryContext.use_input, InputStorage.get, hnone]

/-- Witness for C9: reading present key 7 returns its value 9 and
records cell `(1, 0)`; reading absent key 5 returns `None` and leaves
the dependency set empty. -/
theorem use_input_spec_witness :
    QueryContext.use_input (⟨2, [(1, ⟨[(7, 0)], [(0, 9)], 1⟩)], [((1, 0), 2)]⟩ : Runtime Nat Nat)
        [] 1 7 = (some 9, [(1, 0)])
    ∧ QueryContext.use_input
        (⟨2, [(1, ⟨[(7, 0)], [(0, 9)], 1⟩)], [((1, 0), 2)]⟩ : Runtime Nat Nat) [] 1 5 =
        (none, []) := by
  constructor
  · exact ((use_input_spec (⟨2, [(1, ⟨[(7, 0)], [(0, 9)], 1⟩)], [((1, 0), 2)]⟩ : Runtime Nat Nat)
      [] 1 7).1 0 9 (by decide) (by decide)).1
  · exact (use_input_spec (⟨2, [(1, ⟨[(7, 0)], [(0, 9)], 1⟩)], [((1, 0), 2)]⟩ : Runtime Nat Nat)
      [] 1 5).2 (by decide)

/-- Resolving an id never touches `query_map`, and afterwards `id_map`
maps `(q, p)` to the resolved id. -/
theorem resolveId_spec {QT P O : Type} [DecidableEq QT] [DecidableEq P]
    (c : QueryCache QT P O) (q : QT) (p : P) (query_id : Nat) (c₁ : QueryCache QT P O)
    (h : c.resolveId q p = (query_id, c₁)) :
    c₁.query_map = c.query_map ∧ c₁.id q p = some query_id := by
  rcases hq : lookupA c.id_map q with _ | pm
  · simp only [QueryCache.resolveId, hq] at h
    cases h
    exact ⟨rfl, by simp [QueryCache.id, lookupA_insertA, lookupA]⟩
  · rcases hp : lookupA pm p with _ | known
    · simp only [QueryCache.resolveId, hq, hp] at h
      cases h
      exact ⟨rfl, by simp [QueryCache.id, lookupA_insertA, lookupA]⟩
    · simp only [QueryCache.resolveId, hq, hp] at h
      cases h
      exact ⟨rfl, by simp [QueryCache.id, hq, hp]⟩

/-- C5. `try_insert_with` writes `query_map` only on success: a detected
cycle is converted through the `From` conversion and returned with the
stack untouched; a body error is propagated with the stack guard
released (the stack restored); in both cases `query_map` is unchanged
while `id_map` retains the minted id. -/
theorem try_insert_error_paths {QT P O K V E : Type} [DecidableEq QT] [DecidableEq P]
    [DecidableEq K] (c : QueryCache QT P O) (stack : List Nat) (rt : Runtime K V) (q : QT)
    (p : P) (reads : List (Nat × K)) (resF : List (Option V) → Except E O)
    (eOf : List Nat → E) (query_id : Nat) (c₁ : QueryCache QT P O)
    (hres : c.resolveId q p = (query_id, c₁)) :
    (c₁.query_map = c.query_map ∧ c₁.id q p = some query_id)
    ∧ (∀ i, findLastIdx stack query_id = some i →
        c.try_insert_with stack rt q p reads resF eOf =
          (Except.error (eOf (stack.drop i ++ [query_id])), c₁, stack))
    ∧ (∀ e, findLastIdx stack query_id = none →
        resF (runBody rt reads).1 = Except.error e →
        c.try_insert_with stack rt q p reads resF eOf = (Except.error e, c₁, stack)) := by
  refine ⟨resolveId_spec c q p query_id c₁ hres, ?_, ?_⟩
  · intro i hi
    simp only [QueryCache.try_insert_with, hres, QueryStack.push, hi]
  · intro e hnone herr
    simp only [QueryCache.try_insert_with, hres, QueryStack.push, hnone, herr]
    simp [ActiveQueryGuard.drop, List.dropLast_concat]

/-- Witness for C5: on an empty cache, a body that reads nothing and
fails with error 11 leaves `query_map` empty, keeps the minted id 0 in
`id_map`, and restores the stack `[4]`; and pushing the already-active
id 0 from stack `[0]` reports the cycle `[0, 0]` converted by `eOf`. -/
theorem try_insert_error_paths_witness :
    QueryCache.try_insert_with (QueryCache.empty : QueryCache Nat Nat Nat) [4]
        (Runtime.init : Runtime Nat Nat) 0 5 [] (fun _ => Except.error 11) (fun c => c.length) =
      (Except.error 11, ⟨[(0, [(5, 0)])], [], 1⟩, [4])
    ∧ QueryCache.try_insert_with (⟨[(0, [(5, 0)])], [], 1⟩ : QueryCache Nat Nat Nat) [0]
        (Runtime.init : Runtime Nat Nat) 0 5 [] (fun _ => Except.error 11)
        (fun c => c.length) = (Except.error 2, ⟨[(0, [(5, 0)])], [], 1⟩, [0]) := by
  constructor
  · exact (try_insert_error_paths (QueryCache.empty : QueryCache Nat Nat Nat) [4]
      (Runtime.init : Runtime Nat Nat) 0 5 [] (fun _ => Except.error 11) (fun c => c.length)
      0 ⟨[(0, [(5, 0)])], [], 1⟩ (by rfl)).2.2 11 (by decide) (by rfl)
  · exact (try_insert_error_paths (⟨[(0, [(5, 0)])], [], 1⟩ : QueryCache Nat Nat Nat) [0]
      (Runtime.init : Runtime Nat Nat) 0 5 [] (fun _ => Except.error 11) (fun c => c.length)
      0 ⟨[(0, [(5, 0)])], [], 1⟩ (by rfl)).2.1 0 (by decide)

/-- C6. For the query functions `foo(n) = if n > 1 then bar(n/2) else n`,
`bar(n) = if n % 2 = 0 then foo(n) else baz(n)`, `baz(n) = bar(n+1)`,
the call `query_or_cycle(12, foo)` reports a cycle whose rendering by
`debug_cycle(..).to_strings()` is
`["bar(2)", "foo(2)", "bar(1)", "baz(1)", "bar(2)"]`. -/
theorem cycle_scenario_s4 :
    s4Result = some ["bar(2)", "foo(2)", "bar(1)", "baz(1)", "bar(2)"] := by
  decide

/-- The default storage is well-formed. -/
theorem stWF_new {K V : Type} [DecidableEq K] : (InputStorage.new : InputStorage K V).WF := by
  refine ⟨?_, ?_, ?_⟩
  · intro k ki h
    cases h
  · intro ki
    constructor
    · rintro ⟨k, h⟩
      cases h
    · rintro ⟨v, h⟩
      cases h
  · intro k₁ k₂ ki h₁ h₂
    cases h₁

/-- `set` preserves well-formedness. -/
theorem stWF_set {K V : Type} [DecidableEq K] (s : InputStorage K V) (key : K) (value : V)
    (h : s.WF) : ((s.set key value).2).WF := by
  obtain ⟨hlt, hsets, hinj⟩ := h
  rcases hk : lookupA s.index_map key with _ | ki₀
  · -- fresh key: both maps gain the minted index `s.key_index`
    simp only [InputStorage.set, hk]
    refine ⟨?_, ?_, ?_⟩
    · intro k ki hki
      rw [lookupA_insertA] at hki
      by_cases hkk : k = key
      · rw [if_pos hkk] at hki
        cases hki
        exact Nat.lt_succ_self _
      · rw [if_neg hkk] at hki
        exact Nat.lt_succ_of_lt (hlt _ _ hki)
    · intro ki
      constructor
      · rintro ⟨k, hki⟩
        rw [lookupA_insertA] at hki
        by_cases hkk : k = key
        · rw [if_pos hkk] at hki
          cases hki
          exact ⟨value, by rw [lookupA_insertA, if_pos rfl]⟩
        · rw [if_neg hkk] at hki
          obtain ⟨v, hv⟩ := (hsets ki).mp ⟨k, hki⟩
          have hne : ki ≠ s.key_index := Nat.ne_of_lt (hlt _ _ hki)
          exact ⟨v, by rw [lookupA_insertA, if_neg hne]; exact hv⟩
      · rintro ⟨v, hv⟩
        rw [lookupA_insertA] at hv
        by_cases hki : ki = s.key_index
        · exact ⟨key, by rw [lookupA_insertA, if_pos rfl, hki]⟩
        · rw [if_neg hki] at hv
          obtain ⟨k, hk'⟩ := (hsets ki).mpr ⟨v, hv⟩
          have hkk : k ≠ key := by
            intro hc
            rw [hc, hk] at hk'
            cases hk'
          exact ⟨k, by rw [lookupA_insertA, if_neg hkk]; exact hk'⟩
    · intro k₁ k₂ ki h₁ h₂
      rw [lookupA_insertA] at h₁ h₂
      by_cases hk₁ : k₁ = key <;> by_cases hk₂ : k₂ = key
      · rw [hk₁, hk₂]
      · rw [if_pos hk₁] at h₁
        rw [if_neg hk₂] at h₂
        cases h₁
        exact absurd (hlt _ _ h₂) (Nat.lt_irrefl _)
      · rw [if_neg hk₁] at h₁
        rw [if_pos hk₂] at h₂
        cases h₂
        exact absurd (hlt _ _ h₁) (Nat.lt_irrefl _)
      · rw [if_neg hk₁] at h₁
        rw [if_neg hk₂] at h₂
        exact hinj _ _ _ h₁ h₂
  · -- existing key: `index_map` is unchanged, the value is overwritten
    simp only [InputStorage.set, hk]
    refine ⟨?_, ?_, ?_⟩
    · intro k ki hki
      exact Nat.lt_succ_of_lt (hlt _ _ hki)
    · intro ki
      constructor
      · rintro ⟨k, hki⟩
        by_cases hkiki : ki = ki₀
        · exact ⟨value, by rw [lookupA_insertA, if_pos hkiki]⟩
        · obtain ⟨v, hv⟩ := (hsets ki).mp ⟨k, hki⟩
          exact ⟨v, by rw [lookupA_insertA, if_neg hkiki]; exact hv⟩
      · rintro ⟨v, hv⟩
        rw [lookupA_insertA] at hv
        by_cases hkiki : ki = ki₀
        · exact ⟨key, hkiki ▸ hk⟩
        · rw [if_neg hkiki] at hv
          exact (hsets ki).mpr ⟨v, hv⟩
    · exact hinj

/-- `remove` preserves well-formedness. -/
theorem stWF_remove {K V : Type} [DecidableEq K] (s : InputStorage K V) (key : K)
    (h : s.WF) : (stApply s (StorageOp.remove key)).WF := by
  obtain ⟨hlt, hsets, hinj⟩ := h
  rcases hk : lookupA s.index_map key with _ | ki₀
  · simpa [stApply, InputStorage.remove, hk] using ⟨hlt, hsets, hinj⟩
  · obtain ⟨v₀, hv₀⟩ := (hsets ki₀).mp ⟨key, hk⟩
    simp only [stApply, InputStorage.remove, hk, hv₀]
    refine ⟨?_, ?_, ?_⟩
    · intro k ki hki
      rw [lookupA_eraseA] at hki
      by_cases hkk : k = key
      · rw [if_pos hkk] at hki
        cases hki
      · rw [if_neg hkk] at hki
        exact hlt _ _ hki
    · intro ki
      constructor
      · rintro ⟨k, hki⟩
        rw [lookupA_eraseA] at hki
        by_cases hkk : k = key
        · rw [if_pos hkk] at hki
          cases hki
        · rw [if_neg hkk] at hki
          have hne : ki ≠ ki₀ := by
            intro hc
            exact hkk (hinj _ _ _ (hc ▸ hki) hk)
          obtain ⟨v, hv⟩ := (hsets ki).mp ⟨k, hki⟩
          exact ⟨v, by rw [lookupA_eraseA, if_neg hne]; exact hv⟩
      · rintro ⟨v, hv⟩
        rw [lookupA_eraseA] at hv
        by_cases hne : ki = ki₀
        · rw [if_pos hne] at hv
          cases hv
        · rw [if_neg hne] at hv
          obtain ⟨k, hk'⟩ := (hsets ki).mpr ⟨v, hv⟩
          have hkk : k ≠ key := by
            intro hc
            rw [hc, hk] at hk'
            cases hk'
            exact hne rfl
          exact ⟨k, by rw [lookupA_eraseA, if_neg hkk]; exact hk'⟩
    · intro k₁ k₂ ki h₁ h₂
      rw [lookupA_eraseA] at h₁ h₂
      by_cases hk₁ : k₁ = key
      · rw [if_pos hk₁] at h₁
        cases h₁
      · rw [if_neg hk₁] at h₁
        by_cases hk₂ : k₂ = key
        · rw [if_pos hk₂] at h₂
          cases h₂
        · rw [if_neg hk₂] at h₂
          exact hinj _ _ _ h₁ h₂

/-- Every storage operation preserves well-formedness. -/
theorem stWF_apply {K V : Type} [DecidableEq K] (s : InputStorage K V) (op : StorageOp K V)
    (h : s.WF) : (stApply s op).WF := by
  cases op with
  | set key value => exact stWF_set s key value h
  | get key => exact h
  | remove key => exact stWF_remove s key h

/-- Well-formedness along any operation sequence. -/
theorem stWF_foldl {K V : Type} [DecidableEq K] (ops : List (StorageOp K V))
    (s : InputStorage K V) (h : s.WF) : (ops.foldl stApply s).WF := by
  induction ops generalizing s with
  | nil => exact h
  | cons op rest ih => exact ih _ (stWF_apply s op h)

/-- The mint counter never decreases. -/
theorem key_index_mono_apply {K V : Type} [DecidableEq K] (s : InputStorage K V)
    (op : StorageOp K V) : s.key_index ≤ (stApply s op).key_index := by
  cases op with
  | set key value =>
    rcases hk : lookupA s.index_map key with _ | ki₀ <;>
      simp [stApply, InputStorage.set, hk, Nat.le_succ]
  | get key => exact Nat.le_refl _
  | remove key =>
    rcases hk : lookupA s.index_map key with _ | ki₀
    · simp [stApply, InputStorage.remove, hk]
    · rcases hv : lookupA s.value_map ki₀ with _ | v₀ <;>
        simp [stApply, InputStorage.remove, hk, hv]

/-- The mint counter never decreases along an operation sequence. -/
theorem key_index_mono_foldl {K V : Type} [DecidableEq K] (ops : List (StorageOp K V))
    (s : InputStorage K V) : s.key_index ≤ (ops.foldl stApply s).key_index := by
  induction ops generalizing s with
  | nil => exact Nat.le_refl _
  | cons op rest ih =>
    exact Nat.le_trans (key_index_mono_apply s op) (ih (stApply s op))

/-- C7. In every reachable `InputStorage`: the first `set` of a key
mints the current counter value as its `KeyIndex` and records it, every
subsequent `set` of that key returns the recorded index, `index_map` and
`value_map` hold exactly the same set of `KeyIndex` values, and no index
below the counter (in particular no index ever returned for a cell) is
ever minted again — the counter is monotone along any further operations
and a fresh mint returns exactly the counter. -/
theorem input_storage_invariants {K V : Type} [DecidableEq K] (ops : List (StorageOp K V)) :
    (stRun ops).WF
    ∧ (∀ k v, lookupA (stRun ops).index_map k = none →
        ((stRun ops).set k v).1 = (stRun ops).key_index
        ∧ lookupA ((stRun ops).set k v).2.index_map k = some (stRun ops).key_index)
    ∧ (∀ k v ki, lookupA (stRun ops).index_map k = some ki → ((stRun ops).set k v).1 = ki)
    ∧ (∀ ops' : List (StorageOp K V),
        (stRun ops).key_index ≤ (ops'.foldl stApply (stRun ops)).key_index)
    ∧ (∀ (ops' : List (StorageOp K V)) (k : K) (v : V),
        lookupA (ops'.foldl stApply (stRun ops)).index_map k = none →
        (stRun ops).key_index ≤ ((ops'.foldl stApply (stRun ops)).set k v).1) := by
  refine ⟨stWF_foldl ops InputStorage.new stWF_new, ?_, ?_,
    fun ops' => key_index_mono_foldl ops' (stRun ops), ?_⟩
  · intro k v hk
    constructor
    · simp [InputStorage.set, hk]
    · simp [InputStorage.set, hk, lookupA_insertA]
  · intro k v ki hk
    simp [InputStorage.set, hk]
  · intro ops' k v hk
    have hmint : ((ops'.foldl stApply (stRun ops)).set k v).1 =
        (ops'.foldl stApply (stRun ops)).key_index := by
      simp [InputStorage.set, hk]
    rw [hmint]
    exact key_index_mono_foldl ops' (stRun ops)

/-- Witness for C7: in the storage reached by setting then removing key
7 (counter 1, index 0 burned), a fresh set of key 7 mints the counter
value — index 0 is not reused. -/
theorem input_storage_invariants_witness :
    ((stRun [StorageOp.set 7 1, StorageOp.remove 7] : InputStorage Nat Nat).set 7 5).1 =
      (stRun [StorageOp.set 7 1, StorageOp.remove 7] : InputStorage Nat Nat).key_index :=
  ((input_storage_invariants [StorageOp.set 7 1, StorageOp.remove 7]).2.1 7 5 (by decide)).1

/-- A successful `get` resolves the key through `index_map`. -/
theorem get_some {K V : Type} [DecidableEq K] {s : InputStorage K V} {key : K} {v : V}
    {ki : Nat} (h : s.get key = some (v, ki)) :
    lookupA s.index_map key = some ki ∧ lookupA s.value_map ki = some v := by
  rcases hk : lookupA s.index_map key with _ | ki₀
  · simp only [InputStorage.get, hk] at h
    cases h
  · rcases hv : lookupA s.value_map ki₀ with _ | v₀
    · simp only [InputStorage.get, hk, hv] at h
      cases h
    · simp only [InputStorage.get, hk, hv] at h
      injection h with h₁
      injection h₁ with h₂ h₃
      subst h₂
      subst h₃
      exact ⟨rfl, hv⟩

/-- The initial runtime is well-formed. -/
theorem rtWF_init {K V : Type} [DecidableEq K] : (Runtime.init : Runtime K V).WF := by
  refine ⟨Nat.le_refl _, ?_, ?_⟩
  · intro idx
    exact stWF_new
  · intro idx k ki h
    cases h

/-- `set_input` touches exactly `T`'s table. -/
theorem tableOf_set_input_self {K V : Type} [DecidableEq K] (rt : Runtime K V) (idx : Nat)
    (key : K) (value : V) :
    (rt.set_input idx key value).tableOf idx = ((rt.tableOf idx).set key value).2 := by
  simp [Runtime.set_input, Runtime.tableOf, lookupA_insertA]

/-- Other tables are unchanged by `set_input`. -/
theorem tableOf_set_input_other {K V : Type} [DecidableEq K] (rt : Runtime K V)
    (idx idx' : Nat) (key : K) (value : V) (hne : idx' ≠ idx) :
    (rt.set_input idx key value).tableOf idx' = rt.tableOf idx' := by
  simp [Runtime.set_input, Runtime.tableOf, lookupA_insertA, hne]

/-- `set_input` preserves runtime well-formedness. -/
theorem rtWF_set_input {K V : Type} [DecidableEq K] (rt : Runtime K V) (idx : Nat) (key : K)
    (value : V) (h : rt.WF) : (rt.set_input idx key value).WF := by
  obtain ⟨hrev, htab, hlive⟩ := h
  refine ⟨Nat.le_trans hrev (Nat.le_succ _), ?_, ?_⟩
  · intro idx'
    by_cases hne : idx' = idx
    · subst hne
      rw [tableOf_set_input_self]
      exact stWF_set _ _ _ (htab idx')
    · rw [tableOf_set_input_other rt idx idx' key value hne]
      exact htab idx'
  · intro idx' k ki hki
    have hrevs : (rt.set_input idx key value).input_revs =
        insertA rt.input_revs (idx, ((rt.tableOf idx).set key value).1) (rt.rev + 1) := rfl
    have hrev' : (rt.set_input idx key value).rev = rt.rev + 1 := rfl
    rw [hrevs, hrev']
    by_cases hne : idx' = idx
    · subst hne
      rw [tableOf_set_input_self] at hki
      rcases hk : lookupA (rt.tableOf idx').index_map key with _ | ki₀
      · -- fresh mint: the resolved index is the counter
        have hres : ((rt.tableOf idx').set key value).1 = (rt.tableOf idx').key_index := by
          simp [InputStorage.set, hk]
        have hidxmap : ((rt.tableOf idx').set key value).2.index_map =
            insertA (rt.tableOf idx').index_map key (rt.tableOf idx').key_index := by
          simp [InputStorage.set, hk]
        rw [hidxmap, lookupA_insertA] at hki
        by_cases hkk : k = key
        · rw [if_pos hkk] at hki
          cases hki
          rw [hres, lookupA_insertA, if_pos rfl]
          exact ⟨rt.rev + 1, rfl, Nat.le_refl _⟩
        · rw [if_neg hkk] at hki
          have hkine : ki ≠ ((rt.tableOf idx').set key value).1 := by
            rw [hres]
            exact Nat.ne_of_lt ((htab idx').1 _ _ hki)
          rw [lookupA_insertA, if_neg (by simpa using hkine)]
          obtain ⟨r, hr, hle⟩ := hlive idx' k ki hki
          exact ⟨r, hr, Nat.le_trans hle (Nat.le_succ _)⟩
      · -- existing key: the resolved index is the recorded one
        have hres : ((rt.tableOf idx').set key value).1 = ki₀ := by
          simp [InputStorage.set, hk]
        have hidxmap : ((rt.tableOf idx').set key value).2.index_map =
            (rt.tableOf idx').index_map := by
          simp [InputStorage.set, hk]
        rw [hidxmap] at hki
        by_cases hkiki : ki = ki₀
        · subst hkiki
          rw [hres, lookupA_insertA, if_pos rfl]
          exact ⟨rt.rev + 1, rfl, Nat.le_refl _⟩
        · rw [hres, lookupA_insertA, if_neg (by simpa using hkiki)]
          obtain ⟨r, hr, hle⟩ := hlive idx' k ki hki
          exact ⟨r, hr, Nat.le_trans hle (Nat.le_succ _)⟩
    · rw [tableOf_set_input_other rt idx idx' key value hne] at hki
      rw [lookupA_insertA, if_neg (by simp [hne])]
      obtain ⟨r, hr, hle⟩ := hlive idx' k ki hki
      exact ⟨r, hr, Nat.le_trans hle (Nat.le_succ _)⟩

/-- `remove_input` preserves runtime well-formedness. -/
theorem rtWF_remove_input {K V : Type} [DecidableEq K] (rt : Runtime K V) (idx : Nat)
    (key : K) (h : rt.WF) : (rt.remove_input idx key).WF := by
  obtain ⟨hrev, htab, hlive⟩ := h
  rcases hk : lookupA (rt.tableOf idx).index_map key with _ | ki₀
  · have : rt.remove_input idx key = rt := by
      simp [Runtime.remove_input, InputStorage.remove, hk]
    rw [this]
    exact ⟨hrev, htab, hlive⟩
  · rcases hv : lookupA (rt.tableOf idx).value_map ki₀ with _ | v₀
    · have : rt.remove_input idx key = rt := by
        simp [Runtime.remove_input, InputStorage.remove, hk, hv]
      rw [this]
      exact ⟨hrev, htab, hlive⟩
    · have hrem : (rt.tableOf idx).remove key =
          some ((v₀, ki₀), ⟨eraseA (rt.tableOf idx).index_map key,
            eraseA (rt.tableOf idx).value_map ki₀, (rt.tableOf idx).key_index⟩) := by
        simp [InputStorage.remove, hk, hv]
      have hrt : rt.remove_input idx key =
          ⟨rt.rev + 1,
            insertA rt.inputs idx ⟨eraseA (rt.tableOf idx).index_map key,
              eraseA (rt.tableOf idx).value_map ki₀, (rt.tableOf idx).key_index⟩,
            insertA rt.input_revs (idx, ki₀) (rt.rev + 1)⟩ := by
        simp only [Runtime.remove_input, hrem]
      rw [hrt]
      refine ⟨Nat.le_trans hrev (Nat.le_succ _), ?_, ?_⟩
      · intro idx'
        by_cases hne : idx' = idx
        · subst hne
          have : Runtime.tableOf
              (⟨rt.rev + 1,
                insertA rt.inputs idx' ⟨eraseA (rt.tableOf idx').index_map key,
                  eraseA (rt.tableOf idx').value_map ki₀, (rt.tableOf idx').key_index⟩,
                insertA rt.input_revs (idx', ki₀) (rt.rev + 1)⟩ : Runtime K V) idx' =
              ⟨eraseA (rt.tableOf idx').index_map key,
                eraseA (rt.tableOf idx').value_map ki₀, (rt.tableOf idx').key_index⟩ := by
            simp [Runtime.tableOf, lookupA_insertA]
          rw [this]
          have := stWF_remove (rt.tableOf idx') key (htab idx')
          simpa [stApply, InputStorage.remove, hk, hv] using this
        · have : Runtime.tableOf
              (⟨rt.rev + 1,
                insertA rt.inputs idx ⟨eraseA (rt.tableOf idx).index_map key,
                  eraseA (rt.tableOf idx).value_map ki₀, (rt.tableOf idx).key_index⟩,
                insertA rt.input_revs (idx, ki₀) (rt.rev + 1)⟩ : Runtime K V) idx' =
              rt.tableOf idx' := by
            simp [Runtime.tableOf, lookupA_insertA, hne]
          rw [this]
          exact htab idx'
      · intro idx' k ki hki
        by_cases hcell : (idx', ki) = (idx, ki₀)
        · rw [lookupA_insertA, if_pos hcell]
          exact ⟨rt.rev + 1, rfl, Nat.le_refl _⟩
        · rw [lookupA_insertA, if_neg hcell]
          by_cases hne : idx' = idx
          · subst hne
            have htable : Runtime.tableOf
                (⟨rt.rev + 1,
                  insertA rt.inputs idx' ⟨eraseA (rt.tableOf idx').index_map key,
                    eraseA (rt.tableOf idx').value_map ki₀, (rt.tableOf idx').key_index⟩,
                  insertA rt.input_revs (idx', ki₀) (rt.rev + 1)⟩ : Runtime K V) idx' =
                ⟨eraseA (rt.tableOf idx').index_map key,
                  eraseA (rt.tableOf idx').value_map ki₀, (rt.tableOf idx').key_index⟩ := by
              simp [Runtime.tableOf, lookupA_insertA]
            rw [htable] at hki
            simp only at hki
            rw [lookupA_eraseA] at hki
            by_cases hkk : k = key
            · rw [if_pos hkk] at hki
              cases hki
            · rw [if_neg hkk] at hki
              obtain ⟨r, hr, hle⟩ := hlive idx' k ki hki
              exact ⟨r, hr, Nat.le_trans hle (Nat.le_succ _)⟩
          · have htable : Runtime.tableOf
                (⟨rt.rev + 1,
                  insertA rt.inputs idx ⟨eraseA (rt.tableOf idx).index_map key,
                    eraseA (rt.tableOf idx).value_map ki₀, (rt.tableOf idx).key_index⟩,
                  insertA rt.input_revs (idx, ki₀) (rt.rev + 1)⟩ : Runtime K V) idx' =
                rt.tableOf idx' := by
              simp [Runtime.tableOf, lookupA_insertA, hne]
            rw [htable] at hki
            obtain ⟨r, hr, hle⟩ := hlive idx' k ki hki
            exact ⟨r, hr, Nat.le_trans hle (Nat.le_succ _)⟩

/-- Every mutation preserves runtime well-formedness. -/
theorem rtWF_apply {K V : Type} [DecidableEq K] (rt : Runtime K V) (op : RtOp K V)
    (h : rt.WF) : (rtApply rt op).WF := by
  cases op with
  | set idx key value => exact rtWF_set_input rt idx key value h
  | remove idx key => exact rtWF_remove_input rt idx key h

/-- Every reachable runtime is well-formed. -/
theorem rtWF_run {K V : Type} [DecidableEq K] (ops : List (RtOp K V)) : (rtRun ops).WF := by
  have haux : ∀ (l : List (RtOp K V)) (rt : Runtime K V), rt.WF → (l.foldl rtApply rt).WF := by
    intro l
    induction l with
    | nil => exact fun rt h => h
    | cons op rest ih => exact fun rt h => ih _ (rtWF_apply rt op h)
  exact haux ops Runtime.init rtWF_init

/-- Mutations never delete `input_revs` entries. -/
theorem input_revs_mono_apply {K V : Type} [DecidableEq K] (rt : Runtime K V) (op : RtOp K V)
    (cell : Nat × Nat) (r : Nat) (h : lookupA rt.input_revs cell = some r) :
    ∃ r', lookupA (rtApply rt op).input_revs cell = some r' := by
  cases op with
  | set idx key value =>
    by_cases hcell : cell = (idx, ((rt.tableOf idx).set key value).1)
    · exact ⟨rt.rev + 1, by simp [rtApply, Runtime.set_input, lookupA_insertA, hcell]⟩
    · refine ⟨r, ?_⟩
      have : (rtApply rt (RtOp.set idx key value)).input_revs =
          insertA rt.input_revs (idx, ((rt.tableOf idx).set key value).1) (rt.rev + 1) := rfl
      rw [this, lookupA_insertA, if_neg hcell]
      exact h
  | remove idx key =>
    rcases hrem : (rt.tableOf idx).remove key with _ | pair
    · have : rtApply rt (RtOp.remove idx key) = rt := by
        simp [rtApply, Runtime.remove_input, hrem]
      rw [this]
      exact ⟨r, h⟩
    · obtain ⟨⟨v₀, ki₀⟩, st⟩ := pair
      have : (rtApply rt (RtOp.remove idx key)).input_revs =
          insertA rt.input_revs (idx, ki₀) (rt.rev + 1) := by
        simp [rtApply, Runtime.remove_input, hrem]
      rw [this, lookupA_insertA]
      by_cases hcell : cell = (idx, ki₀)
      · exact ⟨rt.rev + 1, by rw [if_pos hcell]⟩
      · exact ⟨r, by rw [if_neg hcell]; exact h⟩

/-- Every dependency the context records during a body run is a live
cell, so it has an `input_revs` entry stamped no later than the current
revision. -/
theorem runBody_deps {K V : Type} [DecidableEq K] (rt : Runtime K V) (reads : List (Nat × K))
    (h : rt.WF) :
    ∀ cell ∈ (runBody rt reads).2, ∃ r, lookupA rt.input_revs cell = some r ∧ r ≤ rt.rev := by
  obtain ⟨hrev, htab, hlive⟩ := h
  have haux : ∀ (l : List (Nat × K)) (vals : List (Option V)) (deps : List (Nat × Nat)),
      (∀ cell ∈ deps, ∃ r, lookupA rt.input_revs cell = some r ∧ r ≤ rt.rev) →
      ∀ cell ∈ (l.foldl
        (fun acc r =>
          let step := QueryContext.use_input rt acc.2 r.1 r.2
          (acc.1 ++ [step.1], step.2)) (vals, deps)).2,
        ∃ r, lookupA rt.input_revs cell = some r ∧ r ≤ rt.rev := by
    intro l
    induction l with
    | nil => exact fun vals deps hdeps => hdeps
    | cons rd rest ih =>
      intro vals deps hdeps
      simp only [List.foldl]
      rcases hget : (rt.tableOf rd.1).get rd.2 with _ | vk
      · have hstep : QueryContext.use_input rt deps rd.1 rd.2 = (none, deps) := by
          simp [QueryContext.use_input, hget]
        simpa [hstep] using ih _ _ hdeps
      · obtain ⟨v, ki⟩ := vk
        have hstep : QueryContext.use_input rt deps rd.1 rd.2 =
            (some v, depInsert deps (rd.1, ki)) := by
          simp [QueryContext.use_input, hget]
        have hdeps' : ∀ cell ∈ depInsert deps (rd.1, ki),
            ∃ r, lookupA rt.input_revs cell = some r ∧ r ≤ rt.rev := by
          intro cell hcell
          simp only [depInsert] at hcell
          by_cases hmem : (rd.1, ki) ∈ deps
          · rw [if_pos hmem] at hcell
            exact hdeps cell hcell
          · rw [if_neg hmem] at hcell
            rcases List.mem_cons.mp hcell with rfl | hcell
            · exact hlive rd.1 rd.2 ki (get_some hget).1
            · exact hdeps cell hcell
        simpa [hstep] using ih _ _ hdeps'
  exact haux reads [] [] (by intro cell hcell; cases hcell)

/-- When every dependency cell has an `input_revs` entry, `last_rev_of`
succeeds. -/
theorem last_rev_of_isSome {K V : Type} {rt : Runtime K V} {deps : List (Nat × Nat)}
    (h : ∀ cell ∈ deps, ∃ r, lookupA rt.input_revs cell = some r) :
    ∃ last, rt.last_rev_of deps = some last := by
  have hsome : ∀ cell ∈ deps, ∃ r, (fun index => lookupA rt.input_revs index) cell = some r :=
    fun a ha => h a ha
  obtain ⟨revs, hrevs, _⟩ := mapO_isSome hsome
  exact ⟨(iterMax revs).getD revisionStart, by simp [Runtime.last_rev_of, hrevs]⟩

/-- C2. A successful `try_insert_with` on a well-formed runtime (with
`valid_at` snapshotted after the body ran) followed by no mutation makes
the next `cached` call a hit returning exactly the inserted output. -/
theorem try_insert_then_cached {QT P O K V E : Type} [DecidableEq QT] [DecidableEq P]
    [DecidableEq K] (c : QueryCache QT P O) (stack : List Nat) (rt : Runtime K V) (q : QT)
    (p : P) (reads : List (Nat × K)) (resF : List (Option V) → Except E O)
    (eOf : List Nat → E) (o : O) (c' : QueryCache QT P O) (stack' : List Nat)
    (hWF : rt.WF)
    (hok : c.try_insert_with stack rt q p reads resF eOf = (Except.ok o, c', stack')) :
    c'.cached q p rt = PanicOr.value (some o) := by
  rcases hres : c.resolveId q p with ⟨query_id, c₁⟩
  obtain ⟨hqm, hid⟩ := resolveId_spec c q p query_id c₁ hres
  rcases hpush : QueryStack.push stack query_id with ⟨pr, stack₁⟩
  simp only [QueryCache.try_insert_with, hres, hpush] at hok
  cases pr with
  | cycle payload => simp at hok
  | ok pop_at =>
    rcases hbody : resF (runBody rt reads).1 with e | o'
    · simp only [hbody] at hok
      simp at hok
    · simp only [hbody] at hok
      have ho : o' = o := by
        have := congrArg (fun t => t.1) hok
        simpa using this
      subst ho
      have hc' : c' = (⟨c₁.id_map,
          insertA c₁.query_map query_id ⟨o', rt.rev, (runBody rt reads).2⟩,
          c₁.query_id⟩ : QueryCache QT P O) := by
        have := congrArg (fun t => t.2.1) hok
        simpa using this.symm
      subst hc'
      have hid' : (⟨c₁.id_map,
          insertA c₁.query_map query_id ⟨o', rt.rev, (runBody rt reads).2⟩,
          c₁.query_id⟩ : QueryCache QT P O).id q p = some query_id := hid
      have hlookup : lookupA (insertA c₁.query_map query_id
          (⟨o', rt.rev, (runBody rt reads).2⟩ : QueryData O)) query_id =
          some ⟨o', rt.rev, (runBody rt reads).2⟩ := by
        rw [lookupA_insertA, if_pos rfl]
      obtain ⟨last, hlast, hle⟩ :=
        last_rev_of_le hWF.1 (runBody_deps rt reads hWF)
      simp only [QueryCache.cached, hid', hlookup, hlast, if_pos hle]

/-- Witness for C2: on the runtime reached by one `set_input` (cell
`(1, 0)`, value 9 at key 7), inserting a query that reads that cell and
returns 5 makes the immediate `cached` call return `Some 5`. -/
theorem try_insert_then_cached_witness :
    QueryCache.cached
      (QueryCache.try_insert_with (QueryCache.empty : QueryCache Nat Nat Nat) []
        (rtRun [RtOp.set 1 7 9] : Runtime Nat Nat) 0 3 [(1, 7)]
        (fun _ => Except.ok 5) (fun cyc => cyc.length)).2.1 0 3
      (rtRun [RtOp.set 1 7 9] : Runtime Nat Nat) = PanicOr.value (some 5) :=
  try_insert_then_cached (QueryCache.empty : QueryCache Nat Nat Nat) []
    (rtRun [RtOp.set 1 7 9] : Runtime Nat Nat) 0 3 [(1, 7)]
    (fun _ => Except.ok 5) (fun cyc => cyc.length) 5 _ _
    (rtWF_run [RtOp.set 1 7 9]) rfl

/-- Every system operation preserves the system invariant. -/
theorem sysWF_apply {QT P O K V E : Type} [DecidableEq QT] [DecidableEq P] [DecidableEq K]
    (s : SysState QT P O K V) (op : SysOp QT P O K V E) (h : s.WF) : (sysApply s op).WF := by
  obtain ⟨hrt, hdeps⟩ := h
  cases op with
  | set idx key value =>
    refine ⟨rtWF_apply s.rt (RtOp.set idx key value) hrt, ?_⟩
    intro query_id data hentry cell hcell
    obtain ⟨r, hr⟩ := hdeps query_id data hentry cell hcell
    exact input_revs_mono_apply s.rt (RtOp.set idx key value) cell r hr
  | remove idx key =>
    refine ⟨rtWF_apply s.rt (RtOp.remove idx key) hrt, ?_⟩
    intro query_id data hentry cell hcell
    obtain ⟨r, hr⟩ := hdeps query_id data hentry cell hcell
    exact input_revs_mono_apply s.rt (RtOp.remove idx key) cell r hr
  | query q p reads resF eOf =>
    refine ⟨hrt, ?_⟩
    rcases hres : s.cache.resolveId q p with ⟨query_id, c₁⟩
    obtain ⟨hqm, _⟩ := resolveId_spec s.cache q p query_id c₁ hres
    have hpush : QueryStack.push [] query_id = (PushRes.ok 1, [query_id]) := rfl
    intro qid data hentry cell hcell
    simp only [sysApply, QueryCache.try_insert_with, hres, hpush] at hentry
    rcases hbody : resF (runBody s.rt reads).1 with e | o
    · rw [hbody] at hentry
      simp only at hentry
      rw [hqm] at hentry
      exact hdeps qid data hentry cell hcell
    · rw [hbody] at hentry
      simp only at hentry
      rw [lookupA_insertA] at hentry
      by_cases hqid : qid = query_id
      · rw [if_pos hqid] at hentry
        injection hentry with hdata
        subst hdata
        obtain ⟨r, hr, _⟩ := runBody_deps s.rt reads hrt cell hcell
        exact ⟨r, hr⟩
      · rw [if_neg hqid] at hentry
        rw [hqm] at hentry
        exact hdeps qid data hentry cell hcell

/-- Every reachable system state satisfies the invariant. -/
theorem sysWF_run {QT P O K V E : Type} [DecidableEq QT] [DecidableEq P] [DecidableEq K]
    (ops : List (SysOp QT P O K V E)) : (sysRun ops).WF := by
  have haux : ∀ (l : List (SysOp QT P O K V E)) (s : SysState QT P O K V),
      s.WF → (l.foldl sysApply s).WF := by
    intro l
    induction l with
    | nil => exact fun s h => h
    | cons op rest ih => exact fun s h => ih _ (sysWF_apply s op h)
  refine haux ops ⟨Runtime.init, QueryCache.empty⟩ ⟨rtWF_init, ?_⟩
  intro query_id data hentry
  cases hentry

/-- C10. In every reachable system state, every dependency cell stored
in `query_map` (all recorded by `use_input`) is a key of `input_revs`,
so the direct indexing in `last_rev_of` — and hence every `cached`
validity check — never panics. -/
theorem query_deps_never_panic {QT P O K V E : Type} [DecidableEq QT] [DecidableEq P]
    [DecidableEq K] (ops : List (SysOp QT P O K V E)) :
    (∀ query_id data, lookupA (sysRun ops).cache.query_map query_id = some data →
      (∀ cell ∈ data.dependencies, ∃ r, lookupA (sysRun ops).rt.input_revs cell = some r)
      ∧ ∃ last, (sysRun ops).rt.last_rev_of data.dependencies = some last)
    ∧ (∀ q p, (sysRun ops).cache.cached q p (sysRun ops).rt ≠ PanicOr.panicked) := by
  obtain ⟨hrt, hdeps⟩ := sysWF_run ops
  constructor
  · intro query_id data hentry
    refine ⟨hdeps query_id data hentry, ?_⟩
    exact last_rev_of_isSome (hdeps query_id data hentry)
  · intro q p hpan
    simp only [QueryCache.cached] at hpan
    rcases hid : (sysRun ops).cache.id q p with _ | query_id
    · simp only [hid] at hpan
      cases hpan
    · simp only [hid] at hpan
      rcases hentry : lookupA (sysRun ops).cache.query_map query_id with _ | data
      · simp only [hentry] at hpan
        cases hpan
      · simp only [hentry] at hpan
        obtain ⟨last, hlast⟩ := last_rev_of_isSome (hdeps query_id data hentry)
        simp only [hlast] at hpan
        by_cases hle : last ≤ data.valid_at
        · rw [if_pos hle] at hpan
          cases hpan
        · rw [if_neg hle] at hpan
          cases hpan

/-- Witness for C10: after one `set_input` and one query that read the
cell `(1, 0)`, the stored dependency has an `input_revs` entry and
`cached` does not panic. -/
theorem query_deps_never_panic_witness :
    (∃ r, lookupA (sysRun [SysOp.set 1 7 9,
        SysOp.query 0 3 [(1, 7)] (fun _ => Except.ok 5) (fun cyc => cyc.length)]
        : SysState Nat Nat Nat Nat Nat).rt.input_revs (1, 0) = some r)
    ∧ (sysRun [SysOp.set 1 7 9,
        SysOp.query 0 3 [(1, 7)] (fun _ => Except.ok 5) (fun cyc => cyc.length)]
        : SysState Nat Nat Nat Nat Nat).cache.cached 0 3
        (sysRun [SysOp.set 1 7 9,
          SysOp.query 0 3 [(1, 7)] (fun _ => Except.ok 5) (fun cyc => cyc.length)]
          : SysState Nat Nat Nat Nat Nat).rt ≠ PanicOr.panicked := by
  constructor
  · exact ((query_deps_never_panic [SysOp.set 1 7 9,
      SysOp.query 0 3 [(1, 7)] (fun _ => Except.ok 5) (fun cyc => cyc.length)]).1
      0 ⟨5, 2, [(1, 0)]⟩ (by rfl)).1 (1, 0) (by decide)
  · exact (query_deps_never_panic [SysOp.set 1 7 9,
      SysOp.query 0 3 [(1, 7)] (fun _ => Except.ok 5) (fun cyc => cyc.length)]).2 0 3

end Inqui
